import Mathlib

/-!
Verification of the arc-language core-codegen backend (AMD64 lowering engine
and ELF64 object writer) against its specification.

The Go sources contain sibling variants of several files.  Where two variants
of the same function exist, both are embedded, with the suffix `Full` (or `V1`)
for the richer variant and `Abi` (or `V2` / `A`) for the simplified sibling:

* `sizeOfFull`, `alignOfFull`, `fieldOffsetFull` — the Type/ABI layer with
  alignment support (the variant with `AlignOf`/`GetStructSize`).
* `sizeOfAbi`, `fieldOffsetAbi` — the simplified `arch/amd64/abi.go` sibling
  that rounds everything to 8 bytes.
* `writeToV1` — the `format/elf` writer variant that tracks `RelaSections`
  and passes the `.shstrtab` index to its header writer explicitly.
* `writeToV2` — the sibling writer variant that computes `e_shstrndx` as
  `len(sections) - 2`.
* `compileFunctionB` — the `arch/amd64/compiler.go` variant with
  `emitPrologue`/`emitArgSave`/`applyFixups` (fixups with a missing target
  are silently skipped).
* `compileFunctionA` — the sibling variant whose inline fixup loop returns an
  error when a fixup target has no recorded block offset.

Machine integers are modelled as `Nat`/`Int` with explicit reductions
(`% 256` for Go `byte`, `% 2^32` for `uint32`, `% 2^64` for `uint64`).
-/

set_option autoImplicit false

namespace Codegen

/-! ### IR types (consumed interface, spec section 3)

`Ty` mirrors the type variants the Type/ABI layer switches on:
Void, Integer(bitwidth), Float(bitwidth), Pointer, Array, Struct(fields,
packed), Vector(element, length, scalable), Function, Label. -/

inductive Ty where
  | void : Ty
  | integer (bits : Nat) : Ty
  | float (bits : Nat) : Ty
  | pointer (elem : Ty) : Ty
  | array (elem : Ty) (length : Nat) : Ty
  | struct (fields : List Ty) (packed : Bool) : Ty
  | vector (elem : Ty) (length : Nat) (scalable : Bool) : Ty
  | function : Ty
  | label : Ty

/-- Alignment step used throughout the Go sources:
`if off % a != 0 { off += a - off % a }`. -/
def alignTo (off a : Nat) : Nat :=
  if off % a ≠ 0 then off + (a - off % a) else off

mutual

/-- `SizeOf` from the full Type/ABI variant (the sibling of `abi.go` that
handles >64-bit integers, floats, vectors and alignment). -/
def sizeOfFull : Ty → Nat
  | .void => 0
  | .integer bits =>
      if bits ≤ 8 then 1
      else if bits ≤ 16 then 2
      else if bits ≤ 32 then 4
      else if bits ≤ 64 then 8
      else ((bits + 63) / 64) * 8
  | .float bits =>
      if bits = 16 then 2
      else if bits = 32 then 4
      else if bits = 64 then 8
      else if bits = 128 then 16
      else 8
  | .pointer _ => 8
  | .array elem len => len * sizeOfFull elem
  | .struct fields packed =>
      if packed then sumSizesFull fields else structSizeFull fields
  | .vector elem len scalable =>
      if scalable then 0
      else
        let total := sizeOfFull elem * len
        if total < 16 then total else ((total + 15) / 16) * 16
  | .function => 8
  | .label => 0

/-- `AlignOf` from the full Type/ABI variant. -/
def alignOfFull : Ty → Nat
  | .void => 1
  | .label => 1
  | .integer bits =>
      if bits ≤ 8 then 1
      else if bits ≤ 16 then 2
      else if bits ≤ 32 then 4
      else 8
  | .float bits =>
      if bits = 16 then 2
      else if bits = 32 then 4
      else if bits = 64 then 8
      else if bits = 128 then 16
      else 8
  | .pointer _ => 8
  | .array elem _ => alignOfFull elem
  | .struct fields packed =>
      if packed then 1 else maxAlignFrom 1 fields
  | .vector elem len _ =>
      let total := sizeOfFull elem * len
      if total ≤ 16 then total else 16
  | .function => 8

/-- The packed-struct size loop: plain sum of field sizes. -/
def sumSizesFull : List Ty → Nat
  | [] => 0
  | f :: fs => sizeOfFull f + sumSizesFull fs

/-- The `maxAlign` accumulation loop inside `AlignOf` for unpacked structs. -/
def maxAlignFrom (acc : Nat) : List Ty → Nat
  | [] => acc
  | f :: fs =>
      maxAlignFrom (if alignOfFull f > acc then alignOfFull f else acc) fs

/-- The field walk of `GetStructSize`/`GetStructFieldOffset`: align the
running offset to each field's alignment, then add its size. -/
def structWalkFull (off : Nat) : List Ty → Nat
  | [] => off
  | f :: fs => structWalkFull (alignTo off (alignOfFull f) + sizeOfFull f) fs

/-- `GetStructSize` for an unpacked struct: walk all fields, then pad the
total to the struct's own alignment. -/
def structSizeFull (fields : List Ty) : Nat :=
  alignTo (structWalkFull 0 fields) (maxAlignFrom 1 fields)

end

/-- `GetStructFieldOffset` from the full Type/ABI variant. -/
def fieldOffsetFull (fields : List Ty) (packed : Bool) (idx : Nat) : Nat :=
  if idx ≥ fields.length then 0
  else if packed then sumSizesFull (fields.take idx)
  else
    alignTo (structWalkFull 0 (fields.take idx))
      (alignOfFull (fields.getD idx Ty.void))

/-! ### The simplified `arch/amd64/abi.go` sibling -/

mutual

/-- `SizeOf` from `arch/amd64/abi.go`: integers cap at 8 bytes, structs are
laid out with a blanket 8-byte alignment, everything unhandled falls to 8. -/
def sizeOfAbi : Ty → Nat
  | .integer bits =>
      if bits ≤ 8 then 1
      else if bits ≤ 16 then 2
      else if bits ≤ 32 then 4
      else 8
  | .pointer _ => 8
  | .array elem len => len * sizeOfAbi elem
  | .struct fields _ => alignTo (abiStructWalk 0 fields) 8
  | _ => 8

/-- The struct loop in `abi.go`'s `SizeOf`: 8-byte-align the running size
before adding each field's size (the final result is 8-byte aligned too). -/
def abiStructWalk (sz : Nat) : List Ty → Nat
  | [] => sz
  | f :: fs => abiStructWalk (alignTo sz 8 + sizeOfAbi f) fs

end

/-- The loop body of `abi.go`'s `GetStructFieldOffset`: add each field size,
then round the offset up to 8. -/
def abiOffsetWalk (off : Nat) : List Ty → Nat
  | [] => off
  | f :: fs => abiOffsetWalk (alignTo (off + sizeOfAbi f) 8) fs

/-- `GetStructFieldOffset` from `arch/amd64/abi.go` (no packed handling, no
bounds check; a trailing 8-byte round-up). -/
def fieldOffsetAbi (fields : List Ty) (idx : Nat) : Nat :=
  alignTo (abiOffsetWalk 0 (fields.take idx)) 8

/-! ### Float constants (helpers.go, loadConstFloat) -/

/-- Integer value that `loadConstFloat` materialises into the general-purpose
register before the `movd`/`movq` into the XMM register.  The argument
`doubleBits` is the binary64 bit pattern of the Go `float64` constant value.
The Go code reinterprets the `float64` through `unsafe.Pointer`; on the
little-endian AMD64 target the `uint32` read yields the LOW 32 bits of the
double-precision pattern (it does not convert to `float32` first), and the
`uint64` read yields the full pattern. -/
def loadConstFloatGpr (doubleBits : Nat) (bits : Nat) : Nat :=
  if bits = 32 then doubleBits % 4294967296 else doubleBits

/-- IEEE-754 binary interchange encoding: sign, then `expWidth` exponent-field
bits, then `sigWidth` trailing-significand bits. -/
def ieeeFields (expWidth sigWidth sign expField frac : Nat) : Nat :=
  (sign * 2 ^ expWidth + expField) * 2 ^ sigWidth + frac

/-- Binary64 bit pattern of 1.0 (sign 0, biased exponent 1023, fraction 0). -/
def fp64BitsOfOne : Nat := ieeeFields 11 52 0 1023 0

/-- Binary32 bit pattern of 1.0 (sign 0, biased exponent 127, fraction 0). -/
def fp32BitsOfOne : Nat := ieeeFields 8 23 0 127 0

/-! ### Helper lemmas for the alignment walks -/

theorem alignTo_le (off a : Nat) : off ≤ alignTo off a := by
  unfold alignTo; split <;> omega

theorem alignTo8_mod (x : Nat) : alignTo x 8 % 8 = 0 := by
  unfold alignTo; split <;> omega

theorem alignTo8_eq_self (x : Nat) (h : x % 8 = 0) : alignTo x 8 = x := by
  unfold alignTo; simp [h]

theorem structWalkFull_append (off : Nat) (l1 l2 : List Ty) :
    structWalkFull off (l1 ++ l2) = structWalkFull (structWalkFull off l1) l2 := by
  induction l1 generalizing off with
  | nil => simp [structWalkFull]
  | cons f fs ih => simp [structWalkFull, ih]

theorem abiOffsetWalk_append (off : Nat) (l1 l2 : List Ty) :
    abiOffsetWalk off (l1 ++ l2) = abiOffsetWalk (abiOffsetWalk off l1) l2 := by
  induction l1 generalizing off with
  | nil => simp [abiOffsetWalk]
  | cons f fs ih => simp [abiOffsetWalk, ih]

theorem abiOffsetWalk_mod8 (off : Nat) (l : List Ty) (h : off % 8 = 0) :
    abiOffsetWalk off l % 8 = 0 := by
  induction l generalizing off with
  | nil => exact h
  | cons f fs ih => exact ih _ (alignTo8_mod _)

theorem take_succ_getD {α : Type} (l : List α) (i : Nat) (d : α) (h : i < l.length) :
    l.take (i + 1) = l.take i ++ [l.getD i d] := by
  rw [List.take_succ]
  have hg : l[i]? = some (l.getD i d) := by
    rw [List.getElem?_eq_getElem h, List.getD_eq_getElem l d h]
  rw [hg]
  rfl

theorem fieldOffsetFull_unpacked (fs : List Ty) (idx : Nat) (h : idx < fs.length) :
    fieldOffsetFull fs false idx =
      alignTo (structWalkFull 0 (fs.take idx)) (alignOfFull (fs.getD idx Ty.void)) := by
  unfold fieldOffsetFull
  rw [if_neg (by omega)]
  simp

/-- C4 (amended): for every integer bit width, the full Type/ABI `SizeOf`
returns the least of {1,2,4,8} bytes covering the width when the width is at
most 64 bits, and the least multiple of 8 bytes covering the width when it
exceeds 64 bits; the simplified `abi.go` `SizeOf` agrees for widths up to 64
bits but returns 8 bytes for every width above 64 bits. -/
theorem sizeOf_integer_rounding :
    (∀ bits : Nat, bits ≤ 64 →
       (sizeOfFull (Ty.integer bits) = 1 ∨ sizeOfFull (Ty.integer bits) = 2 ∨
        sizeOfFull (Ty.integer bits) = 4 ∨ sizeOfFull (Ty.integer bits) = 8) ∧
       bits ≤ 8 * sizeOfFull (Ty.integer bits) ∧
       (∀ s : Nat, (s = 1 ∨ s = 2 ∨ s = 4 ∨ s = 8) → bits ≤ 8 * s →
          sizeOfFull (Ty.integer bits) ≤ s) ∧
       sizeOfAbi (Ty.integer bits) = sizeOfFull (Ty.integer bits)) ∧
    (∀ bits : Nat, 64 < bits →
       sizeOfFull (Ty.integer bits) % 8 = 0 ∧
       bits ≤ 8 * sizeOfFull (Ty.integer bits) ∧
       (∀ m : Nat, m % 8 = 0 → bits ≤ 8 * m → sizeOfFull (Ty.integer bits) ≤ m) ∧
       sizeOfAbi (Ty.integer bits) = 8) := by
  constructor
  · intro bits h
    simp only [sizeOfFull, sizeOfAbi]
    split_ifs <;>
      exact ⟨by omega, by omega, fun s hs hbs => by omega, by omega⟩
  · intro bits h
    simp only [sizeOfFull, sizeOfAbi]
    split_ifs <;> first
      | omega
      | exact ⟨by omega, by omega, fun m hm hbm => by omega, by omega⟩

/-- C4 counterexample: the `abi.go` `SizeOf` at a 128-bit integer returns 8
bytes, which cannot hold 128 bits, so it is not the width rounded up to a
multiple of 8 bytes as the claim states. -/
theorem sizeOf_integer_abi_counterexample :
    sizeOfAbi (Ty.integer 128) = 8 ∧ ¬ (128 ≤ 8 * sizeOfAbi (Ty.integer 128)) := by
  have h : sizeOfAbi (Ty.integer 128) = 8 := by norm_num [sizeOfAbi]
  exact ⟨h, by omega⟩

/-- C4 witness: the amended theorem applied at the concrete widths 100 and 32. -/
theorem sizeOf_integer_rounding_witness :
    sizeOfFull (Ty.integer 100) % 8 = 0 ∧ 100 ≤ 8 * sizeOfFull (Ty.integer 100) ∧
    sizeOfAbi (Ty.integer 100) = 8 ∧
    sizeOfAbi (Ty.integer 32) = sizeOfFull (Ty.integer 32) := by
  have h1 := sizeOf_integer_rounding.2 100 (by omega)
  have h2 := sizeOf_integer_rounding.1 32 (by omega)
  exact ⟨h1.1, h1.2.1, h1.2.2.2, h2.2.2.2⟩

/-- C5 evaluation at the failing input: for the 32-bit float constant 1.0
(whose Go `float64` representation has the binary64 pattern of 1.0),
`loadConstFloat` materialises the integer 0 into the register — the low 32
bits of the binary64 pattern — whereas the binary32 pattern of 1.0 is
0x3F800000 = 1065353216. -/
theorem loadConstFloat_one_bits :
    loadConstFloatGpr fp64BitsOfOne 32 = 0 ∧
    fp32BitsOfOne = 1065353216 ∧
    loadConstFloatGpr fp64BitsOfOne 32 ≠ fp32BitsOfOne ∧
    (∀ b : Nat, loadConstFloatGpr b 64 = b) := by
  refine ⟨by norm_num [loadConstFloatGpr, fp64BitsOfOne, ieeeFields],
          by norm_num [fp32BitsOfOne, ieeeFields], ?_, ?_⟩
  · norm_num [loadConstFloatGpr, fp64BitsOfOne, fp32BitsOfOne, ieeeFields]
  · intro b; norm_num [loadConstFloatGpr]

/-- C9: in an unpacked struct, the offset of field `i+1` is at least the
offset of field `i` plus the size of field `i`, for both the full Type/ABI
variant (`GetStructFieldOffset` with per-field alignment) and the `abi.go`
variant (blanket 8-byte rounding).  The positivity hypothesis on alignments
excludes degenerate zero-size-vector fields, on which the Go code would panic
with a division by zero. -/
theorem structFieldOffset_monotone (fields : List Ty) (i : Nat)
    (h1 : i + 1 < fields.length)
    (h2 : ∀ f ∈ fields, 0 < alignOfFull f) :
    fieldOffsetFull fields false i + sizeOfFull (fields.getD i Ty.void) ≤
      fieldOffsetFull fields false (i + 1) ∧
    fieldOffsetAbi fields i + sizeOfAbi (fields.getD i Ty.void) ≤
      fieldOffsetAbi fields (i + 1) := by
  have hi : i < fields.length := by omega
  have htake := take_succ_getD fields i Ty.void hi
  constructor
  · rw [fieldOffsetFull_unpacked fields i hi, fieldOffsetFull_unpacked fields (i + 1) h1]
    have hw : structWalkFull 0 (fields.take (i + 1)) =
        alignTo (structWalkFull 0 (fields.take i))
          (alignOfFull (fields.getD i Ty.void)) +
          sizeOfFull (fields.getD i Ty.void) := by
      rw [htake, structWalkFull_append]
      simp [structWalkFull]
    calc alignTo (structWalkFull 0 (fields.take i))
          (alignOfFull (fields.getD i Ty.void)) +
          sizeOfFull (fields.getD i Ty.void)
        = structWalkFull 0 (fields.take (i + 1)) := hw.symm
      _ ≤ alignTo (structWalkFull 0 (fields.take (i + 1)))
          (alignOfFull (fields.getD (i + 1) Ty.void)) := alignTo_le _ _
  · unfold fieldOffsetAbi
    have hmod : abiOffsetWalk 0 (fields.take i) % 8 = 0 :=
      abiOffsetWalk_mod8 0 _ (by omega)
    have hmod1 : abiOffsetWalk 0 (fields.take (i + 1)) % 8 = 0 :=
      abiOffsetWalk_mod8 0 _ (by omega)
    have hw : abiOffsetWalk 0 (fields.take (i + 1)) =
        alignTo (abiOffsetWalk 0 (fields.take i) +
          sizeOfAbi (fields.getD i Ty.void)) 8 := by
      rw [htake, abiOffsetWalk_append]
      simp [abiOffsetWalk]
    rw [alignTo8_eq_self _ hmod, alignTo8_eq_self _ hmod1, hw]
    exact alignTo_le _ _

/-- C9 witness: the monotonicity theorem applied to the concrete unpacked
struct { i8, i32 } at field index 0. -/
theorem structFieldOffset_monotone_witness :
    fieldOffsetFull [Ty.integer 8, Ty.integer 32] false 0 +
        sizeOfFull ([Ty.integer 8, Ty.integer 32].getD 0 Ty.void) ≤
      fieldOffsetFull [Ty.integer 8, Ty.integer 32] false 1 ∧
    fieldOffsetAbi [Ty.integer 8, Ty.integer 32] 0 +
        sizeOfAbi ([Ty.integer 8, Ty.integer 32].getD 0 Ty.void) ≤
      fieldOffsetAbi [Ty.integer 8, Ty.integer 32] 1 :=
  structFieldOffset_monotone [Ty.integer 8, Ty.integer 32] 0 (by norm_num)
    (by
      intro f hf
      have hc : f = Ty.integer 8 ∨ f = Ty.integer 32 := by simpa using hf
      rcases hc with rfl | rfl <;> norm_num [alignOfFull])

/-! ### ELF64 object writer (format/elf/writer.go)

The model captures the construction phase of `WriteTo` — string-table section
insertion, symbol-table ordering, `.symtab` section fields, relocation-link
patching and the ELF-header fields `e_shnum`/`e_shstrndx` — which is what the
claims concern.  File-offset layout and byte serialisation of headers are
mechanical little-endian packing and are not modelled.  Go pointers
(`*Section`, `*Symbol`) are modelled by creation indices: `Section.Index` is
assigned at creation as the current section count and never changes, so a
section's position in the list always equals its `index` field. -/

structure ElfSection where
  name : String := ""
  typ : Nat := 0
  flags : Nat := 0
  addralign : Nat := 0
  entsize : Nat := 0
  link : Nat := 0
  info : Nat := 0
  index : Nat := 0
  content : List Nat := []
  deriving DecidableEq, Repr

structure ElfSymbol where
  name : String := ""
  /-- Binding (high 4 bits) and type (low 4 bits), a Go byte. -/
  info : Nat := 0
  other : Nat := 0
  /-- Creation index of the section the symbol refers to; none = undefined. -/
  sectionIdx : Option Nat := none
  value : Nat := 0
  size : Nat := 0
  deriving DecidableEq, Repr

/-- The zero `Symbol{}` value written at symbol-table index 0. -/
def nullElfSymbol : ElfSymbol := {}

structure ElfFile where
  sections : List ElfSection
  symbols : List ElfSymbol
  /-- Creation indices of the sections tracked in `File.RelaSections`
  (the variant-1 writer patches their `sh_link` to the `.symtab` index). -/
  relaSections : List Nat
  deriving DecidableEq, Repr

/-- `NewFile`: section 0 is always the null section. -/
def newElfFile : ElfFile :=
  { sections := [{ name := "", typ := 0 }], symbols := [], relaSections := [] }

/-- `AddSection`: the new section's `Index` is the current section count. -/
def addSection (f : ElfFile) (s : ElfSection) : ElfFile × Nat :=
  let idx := f.sections.length
  ({ f with sections := f.sections ++ [{ s with index := idx }] }, idx)

/-- `AddSymbol` (returns the position of the new symbol in `File.Symbols`,
standing in for the Go symbol pointer). -/
def addSymbol (f : ElfFile) (s : ElfSymbol) : ElfFile × Nat :=
  ({ f with symbols := f.symbols ++ [s] }, f.symbols.length)

/-- Symbol binding: `sym.Info >> 4`. -/
def symBinding (s : ElfSymbol) : Nat := s.info / 16

/-- STB_LOCAL test used by both `WriteTo` variants. -/
def isLocalSym (s : ElfSymbol) : Bool := symBinding s == 0

/-- The first `WriteTo` symbol loop: append every STB_LOCAL symbol, in
insertion order, to the list already containing the null symbol. -/
def localSymLoop (acc : List ElfSymbol) : List ElfSymbol → List ElfSymbol
  | [] => acc
  | s :: rest =>
      localSymLoop (if isLocalSym s then acc ++ [s] else acc) rest

/-- The second `WriteTo` symbol loop: append every non-local symbol. -/
def globalSymLoop (acc : List ElfSymbol) : List ElfSymbol → List ElfSymbol
  | [] => acc
  | s :: rest =>
      globalSymLoop (if isLocalSym s then acc else acc ++ [s]) rest

/-- The local-symbol counter of the variant-2 `WriteTo` (it counts locals
while writing them and sets `firstGlobal := localCount + 1`). -/
def localSymCount : List ElfSymbol → Nat
  | [] => 0
  | s :: rest => (if isLocalSym s then 1 else 0) + localSymCount rest

/-- The `sh_link` patch loop of the variant-1 `WriteTo`: for every section
tracked in `RelaSections`, set its `sh_link` to the `.symtab` index. -/
def patchRelaLinks (secs : List ElfSection) (relaIdxs : List Nat)
    (symtabIdx : Nat) : List ElfSection :=
  match relaIdxs with
  | [] => secs
  | i :: rest =>
      patchRelaLinks
        (secs.map (fun s => if s.index = i then { s with link := symtabIdx } else s))
        rest symtabIdx

/-- Result of a `WriteTo` call, restricted to the header fields and emission
orders the claims are about.  `symbols` is the symbol table in emission
order; `shnum`/`shstrndx` are the ELF-header fields (`uint16`). -/
structure WriteOut where
  sections : List ElfSection
  symbols : List ElfSymbol
  shnum : Nat
  shstrndx : Nat
  deriving DecidableEq, Repr

/-- `WriteTo`, variant 1 (the writer with the `RelaSections` field): reserve
`.shstrtab` and `.strtab` first, emit null/local/global symbols recording
`firstGlobal` as the running length after the locals, add `.symtab`, patch
tracked relocation-section links, and write the header with
`e_shnum = len(sections)` and `e_shstrndx = shstrtab.Index`. -/
def writeToV1 (f : ElfFile) : WriteOut :=
  let p1 := addSection f { name := ".shstrtab", typ := 3 }
  let shstrtabIdx := p1.2
  let p2 := addSection p1.1 { name := ".strtab", typ := 3, addralign := 1 }
  let strTabIdx := p2.2
  let ordered1 := localSymLoop [nullElfSymbol] p2.1.symbols
  let firstGlobal := ordered1.length
  let ordered := globalSymLoop ordered1 p2.1.symbols
  let p3 := addSection p2.1
    { name := ".symtab", typ := 2, addralign := 8, entsize := 24,
      link := strTabIdx, info := firstGlobal }
  let symtabIdx := p3.2
  let secs := patchRelaLinks p3.1.sections f.relaSections symtabIdx
  { sections := secs, symbols := ordered,
    shnum := secs.length % 65536, shstrndx := shstrtabIdx % 65536 }

/-- `WriteTo`, variant 2 (the writer without `RelaSections`): build string
tables, add `.shstrtab` then `.strtab`, emit null/local/global symbols
counting the locals, add `.symtab` with `sh_info = localCount + 1`, and write
the header with `e_shnum = len(sections)` and
`e_shstrndx = len(sections) - 2`. -/
def writeToV2 (f : ElfFile) : WriteOut :=
  let p1 := addSection f { name := ".shstrtab", typ := 3 }
  let p2 := addSection p1.1 { name := ".strtab", typ := 3, addralign := 1 }
  let strTabIdx := p2.2
  let ordered1 := localSymLoop [nullElfSymbol] p2.1.symbols
  let firstGlobal := localSymCount p2.1.symbols + 1
  let ordered := globalSymLoop ordered1 p2.1.symbols
  let p3 := addSection p2.1
    { name := ".symtab", typ := 2, addralign := 8, entsize := 24,
      link := strTabIdx, info := firstGlobal }
  { sections := p3.1.sections, symbols := ordered,
    shnum := p3.1.sections.length % 65536,
    shstrndx := (p3.1.sections.length - 2) % 65536 }

/-! ### The GenerateObject driver (the variant that emits `.rela.text`)

This is the driver that pairs with the variant-1 writer (it reads the
exported `Section.Index` field).  It builds the `File` from a compiled
`Artifact` and calls `WriteTo`. -/

/-- A relocation recorded by the AMD64 compiler
(`{code offset, symbol name, type, addend}`). -/
structure ARel where
  offset : Nat
  symbolName : String
  rtype : Nat
  addend : Int
  deriving DecidableEq, Repr

/-- A symbol definition recorded by the AMD64 compiler. -/
structure ASymbolDef where
  name : String
  offset : Nat
  size : Nat
  isFunc : Bool
  isGlobal : Bool
  deriving DecidableEq, Repr

/-- The hand-off from `amd64.Compile` to the ELF writer. -/
structure Artifact where
  textBuffer : List Nat
  dataBuffer : List Nat
  symbols : List ASymbolDef
  relocations : List ARel
  deriving DecidableEq, Repr

/-- `MakeSymbolInfo`: `(binding << 4) | (typ & 0xf)` (bindings used by the
driver are 0 and 1, so no byte overflow arises). -/
def makeSymbolInfo (binding typ : Nat) : Nat := binding * 16 + typ % 16

/-- Little-endian bytes of a `uint64`. -/
def le64Bytes (v : Nat) : List Nat :=
  [v % 256, v / 256 % 256, v / 65536 % 256, v / 16777216 % 256,
   v / 4294967296 % 256, v / 1099511627776 % 256,
   v / 281474976710656 % 256, v / 72057594037927936 % 256]

/-- Go `uint64(x)` for a signed 64-bit value: two's-complement reduction. -/
def uint64OfInt (v : Int) : Nat := (v % 18446744073709551616).toNat

/-- `writeRela`: an `Elf64_Rela` record — offset, `(sym << 32) | type`,
addend, each 8 little-endian bytes. -/
def writeRelaBytes (offset symIdx relType : Nat) (addend : Int) : List Nat :=
  le64Bytes offset ++
  le64Bytes ((symIdx % 4294967296) * 4294967296 + relType % 4294967296) ++
  le64Bytes (uint64OfInt addend)

/-- Replace the section created with index `i` (creation indices are unique,
standing in for the Go section pointer). -/
def updateSection (f : ElfFile) (i : Nat) (g : ElfSection → ElfSection) : ElfFile :=
  { f with sections := f.sections.map (fun s => if s.index = i then g s else s) }

/-- The relocation loop of `GenerateObject`: look each symbol name up in the
symbol map, adding an undefined `STB_GLOBAL, STT_NOTYPE` symbol when absent,
and append the packed `Elf64_Rela` record using `findSymbolIndex` (the
position of the symbol in `File.Symbols` plus one). -/
def relaLoop (f : ElfFile) (symMap : List (String × Nat)) (buf : List Nat) :
    List ARel → ElfFile × List Nat
  | [] => (f, buf)
  | r :: rest =>
      match symMap.lookup r.symbolName with
      | some pos =>
          relaLoop f symMap
            (buf ++ writeRelaBytes r.offset (pos + 1) r.rtype r.addend) rest
      | none =>
          let p := addSymbol f
            { name := r.symbolName, info := makeSymbolInfo 1 0 }
          relaLoop p.1 ((r.symbolName, p.2) :: symMap)
            (buf ++ writeRelaBytes r.offset (p.2 + 1) r.rtype r.addend) rest

/-- The artifact-symbol loop of `GenerateObject`: every compiled symbol is
added with `STB_GLOBAL` binding; functions point at `.text` with `STT_FUNC`,
globals at `.data` with `STT_OBJECT`. -/
def artSymLoop (textIdx : Nat) (dataIdx : Option Nat) (f : ElfFile)
    (symMap : List (String × Nat)) :
    List ASymbolDef → ElfFile × List (String × Nat)
  | [] => (f, symMap)
  | s :: rest =>
      let secTyp : Option Nat × Nat :=
        if s.isFunc then (some textIdx, 2)
        else if s.isGlobal then (dataIdx, 1)
        else (none, 0)
      let p := addSymbol f
        { name := s.name, info := makeSymbolInfo 1 secTyp.2,
          sectionIdx := secTyp.1, value := s.offset, size := s.size }
      artSymLoop textIdx dataIdx p.1 ((s.name, p.2) :: symMap) rest

/-- `GenerateObject` (the `.rela.text`-emitting variant), from the compiled
artifact to the `WriteTo` output: add `.text`, optionally `.data`, the file
symbol, section symbols, artifact symbols; then, if there are relocations,
pack the rela records and add `.rela.text` with
`Link = len(sections) - 1` (computed right after adding the section — the
comment says "link to .symtab, added later" but the section is never
registered in `File.RelaSections`), `Info = .text index`, `Entsize = 24`;
finally seal with the variant-1 `WriteTo`. -/
def generateObjectModel (moduleName : String) (art : Artifact) : WriteOut :=
  let f0 := newElfFile
  let pText := addSection f0
    { name := ".text", typ := 1, flags := 6, addralign := 16,
      content := art.textBuffer }
  let textIdx := pText.2
  let pData : ElfFile × Option Nat :=
    if art.dataBuffer.length > 0 then
      let p := addSection pText.1
        { name := ".data", typ := 1, flags := 3, addralign := 8,
          content := art.dataBuffer }
      (p.1, some p.2)
    else (pText.1, none)
  let pFile := addSymbol pData.1
    { name := moduleName, info := makeSymbolInfo 0 4 }
  let pTextSym := addSymbol pFile.1
    { name := "", info := makeSymbolInfo 0 3, sectionIdx := some textIdx }
  let m0 : List (String × Nat) := [(".text", pTextSym.2)]
  let pDataSym : ElfFile × List (String × Nat) :=
    match pData.2 with
    | some dIdx =>
        let p := addSymbol pTextSym.1
          { name := "", info := makeSymbolInfo 0 3, sectionIdx := some dIdx }
        (p.1, (".data", p.2) :: m0)
    | none => (pTextSym.1, m0)
  let pArt := artSymLoop textIdx pData.2 pDataSym.1 pDataSym.2 art.symbols
  let sealed :=
    if art.relocations.length > 0 then
      let pRela := relaLoop pArt.1 pArt.2 [] art.relocations
      let pSec := addSection pRela.1
        { name := ".rela.text", typ := 4, flags := 2, addralign := 8,
          content := pRela.2 }
      let linkVal := pSec.1.sections.length - 1
      updateSection pSec.1 pSec.2
        (fun s => { s with link := linkVal, info := textIdx, entsize := 24 })
    else pArt.1
  writeToV1 sealed

/-! ### Claims C1, C2, C3 -/

/-- Concrete failing artifact for C1: one function symbol and one relocation
against the external symbol "foo" (as produced by compiling a `main` that
calls `foo`). -/
def c1Artifact : Artifact :=
  { textBuffer := [0xC3], dataBuffer := [],
    symbols := [{ name := "main", offset := 0, size := 1,
                  isFunc := true, isGlobal := false }],
    relocations := [{ offset := 1, symbolName := "foo", rtype := 4, addend := -4 }] }

/-- C1 evaluation at the failing input: for an artifact with one relocation,
the emitted `.rela.text` header has `sh_info` = the `.text` index and
`sh_entsize` = 24 as claimed, but its `sh_link` is the `.rela.text` section's
own index (2), not the final `.symtab` index (5): `GenerateObject` sets
`Link = len(sections) - 1` at creation time and never registers the section
in `File.RelaSections`, so `WriteTo`'s patch loop never fires. -/
theorem relaText_link_is_own_index :
    (generateObjectModel "m" c1Artifact).sections.map
        (fun s => (s.name, s.index)) =
      [("", 0), (".text", 1), (".rela.text", 2), (".shstrtab", 3),
       (".strtab", 4), (".symtab", 5)] ∧
    ((generateObjectModel "m" c1Artifact).sections.getD 2 {}).link = 2 ∧
    ((generateObjectModel "m" c1Artifact).sections.getD 2 {}).info = 1 ∧
    ((generateObjectModel "m" c1Artifact).sections.getD 2 {}).entsize = 24 ∧
    ((generateObjectModel "m" c1Artifact).sections.getD 2 {}).link ≠
      ((generateObjectModel "m" c1Artifact).sections.getD 5 {}).index := by
  decide

/-- C2 evaluation at the failing input: the variant-2 `WriteTo` on a fresh
file emits 4 sections and sets `e_shnum` correctly, but
`e_shstrndx = len(sections) - 2 = 2`, which is the `.strtab` index, not the
`.shstrtab` index (1) — contradicting the code's own comment that
`.shstrtab` is second-to-last (it is third-to-last, before `.strtab` and
`.symtab`).  The variant-1 writer gets it right. -/
theorem shstrndx_points_at_strtab :
    (writeToV2 newElfFile).shnum = 4 ∧
    (writeToV2 newElfFile).sections.length = 4 ∧
    (writeToV2 newElfFile).shstrndx = 2 ∧
    ((writeToV2 newElfFile).sections.getD 2 {}).name = ".strtab" ∧
    ((writeToV2 newElfFile).sections.getD 1 {}).name = ".shstrtab" ∧
    ((writeToV2 newElfFile).sections.getD 1 {}).index = 1 ∧
    (writeToV2 newElfFile).shstrndx ≠ 1 ∧
    (writeToV1 newElfFile).shstrndx = 1 := by
  decide

theorem localSymLoop_eq (acc : List ElfSymbol) (l : List ElfSymbol) :
    localSymLoop acc l = acc ++ l.filter isLocalSym := by
  induction l generalizing acc with
  | nil => simp [localSymLoop]
  | cons s rest ih =>
      by_cases h : isLocalSym s <;> simp [localSymLoop, h, ih]

theorem globalSymLoop_eq (acc : List ElfSymbol) (l : List ElfSymbol) :
    globalSymLoop acc l = acc ++ l.filter (fun s => !isLocalSym s) := by
  induction l generalizing acc with
  | nil => simp [globalSymLoop]
  | cons s rest ih =>
      by_cases h : isLocalSym s <;> simp [globalSymLoop, h, ih]

theorem localSymCount_eq (l : List ElfSymbol) :
    localSymCount l = (l.filter isLocalSym).length := by
  induction l with
  | nil => simp [localSymCount]
  | cons s rest ih =>
      by_cases h : isLocalSym s <;> simp [localSymCount, h, ih] <;> omega

/-- The `sh_link` patch loop touches only the `link` field of sections. -/
theorem patchRelaLinks_fields (secs : List ElfSection) (idxs : List Nat) (v : Nat) :
    (patchRelaLinks secs idxs v).map (fun s => (s.name, s.info)) =
      secs.map (fun s => (s.name, s.info)) := by
  induction idxs generalizing secs with
  | nil => rfl
  | cons i rest ih =>
      rw [patchRelaLinks, ih, List.map_map]
      apply List.map_congr_left
      intro s _
      by_cases h : s.index = i <;> simp [h]

theorem patch_getLast_fields (secs : List ElfSection) (idxs : List Nat) (v : Nat) :
    ((patchRelaLinks secs idxs v).getLast?).map (fun s => (s.name, s.info)) =
      (secs.getLast?).map (fun s => (s.name, s.info)) := by
  rw [← List.getLast?_map, patchRelaLinks_fields, List.getLast?_map]

theorem addSection_symbols (f : ElfFile) (s : ElfSection) :
    (addSection f s).1.symbols = f.symbols := rfl

/-- C3: both `WriteTo` variants emit the symbol table as the null symbol,
then every STB_LOCAL symbol in insertion order, then every remaining symbol;
and the `.symtab` section (added last) carries
`sh_info = 1 + count(locals)`, the index of the first global. -/
theorem symtab_ordering (f : ElfFile) :
    (writeToV1 f).symbols =
      nullElfSymbol :: (f.symbols.filter isLocalSym ++
        f.symbols.filter (fun s => !isLocalSym s)) ∧
    ((writeToV1 f).sections.getLast?).map (fun s => (s.name, s.info)) =
      some (".symtab", 1 + (f.symbols.filter isLocalSym).length) ∧
    (writeToV2 f).symbols =
      nullElfSymbol :: (f.symbols.filter isLocalSym ++
        f.symbols.filter (fun s => !isLocalSym s)) ∧
    ((writeToV2 f).sections.getLast?).map (fun s => (s.name, s.info)) =
      some (".symtab", 1 + (f.symbols.filter isLocalSym).length) := by
  refine ⟨?_, ?_, ?_, ?_⟩
  · simp only [writeToV1, addSection]
    rw [globalSymLoop_eq, localSymLoop_eq]
    simp
  · simp only [writeToV1, addSection]
    rw [patch_getLast_fields, List.getLast?_concat]
    rw [localSymLoop_eq]
    simp [Nat.add_comm]
  · simp only [writeToV2, addSection]
    rw [globalSymLoop_eq, localSymLoop_eq]
    simp
  · simp only [writeToV2, addSection]
    rw [List.getLast?_concat]
    rw [localSymCount_eq]
    simp [Nat.add_comm]

/-! ### AMD64 function lowering (arch/amd64)

The instruction subset embedded here covers the lowering paths the claims
exercise: integer `add` (with the 8-bit/32-bit immediate forms), `load`
(whose unsupported sizes are the reachable `EncodingError`), `ret`, `br` and
`condBr` (the jump-fixup emitters).  Registers are numbered as in the source
(`RAX = 0`, `RCX = 1`, ..., `R15 = 15`); XMM registers are numbered 0-15.
Value identity (Go pointer identity of `ir.Value`/`ir.BasicBlock`) is
modelled by argument positions, instruction ids and block ids. -/

inductive Value where
  | constInt (ty : Ty) (val : Int)
  | global (nm : String)
  | arg (idx : Nat) (ty : Ty)
  | instr (id : Nat) (ty : Ty)

/-- Stack-map keys: the identities of the values `compileFunction` spills. -/
inductive VKey where
  | argK (idx : Nat)
  | instK (id : Nat)
  deriving DecidableEq, Repr

def Value.vkey : Value → Option VKey
  | .arg i _ => some (.argK i)
  | .instr id _ => some (.instK id)
  | _ => none

/-- Result type of a value (`value.Type()`); globals are pointers, though no
modelled path consults a global's type. -/
def Value.ty : Value → Ty
  | .constInt t _ => t
  | .global _ => Ty.pointer Ty.void
  | .arg _ t => t
  | .instr _ t => t

/-- `types.IsFloat`. -/
def tyIsFloat : Ty → Bool
  | .float _ => true
  | _ => false

/-- `t.Kind() == types.VoidKind`. -/
def tyIsVoid : Ty → Bool
  | .void => true
  | _ => false

/-- Whether a float type is 32-bit (`BitWidth == 32`, selecting movss over
movsd). -/
def tyIsFloat32 : Ty → Bool
  | .float 32 => true
  | _ => false

inductive Inst where
  | add (id : Nat) (ty : Ty) (lhs rhs : Value)
  | load (id : Nat) (ty : Ty) (ptr : Value)
  | ret (v : Option Value)
  | br (target : Nat)
  | condBr (cond : Value) (ifTrue ifFalse : Nat)

/-- The value-producing instructions and their result identity and type
(`inst` as an `ir.Value`). -/
def Inst.resultKeyTy : Inst → Option (VKey × Ty)
  | .add id t _ _ => some (.instK id, t)
  | .load id t _ => some (.instK id, t)
  | _ => none

structure Block where
  bid : Nat
  insts : List Inst

structure Fn where
  args : List Ty
  blocks : List Block

structure Fixup where
  offset : Nat
  target : Nat
  deriving DecidableEq, Repr

/-- Structured stand-ins for the `fmt.Errorf` failures of the compiler. -/
inductive CompileErr where
  | unsupportedLoadSize (size : Nat)
  | missingLabel (bid : Nat)
  deriving DecidableEq, Repr

structure CState where
  text : List Nat
  fixups : List Fixup
  relocs : List ARel
  blockOffsets : List (Nat × Nat)
  sm : List (VKey × Int)

/-! #### Byte-emission helpers (arch/amd64/helpers.go) -/

/-- Go `byte(x)` of a signed value: two's-complement low byte. -/
def byteOfInt (v : Int) : Nat := (v % 256).toNat

/-- Little-endian bytes of a `uint32`. -/
def le32Bytes (v : Nat) : List Nat :=
  [v % 256, v / 256 % 256, v / 65536 % 256, v / 16777216 % 256]

/-- `emitInt32`: little-endian two's-complement of a signed 32-bit value. -/
def int32Bytes (v : Int) : List Nat := le32Bytes ((v % 4294967296).toNat)

/-- `emitXorReg`: REX.W xor with ModRM `C0 | src<<3 | dst`. -/
def xorRegBytes (dst src : Nat) : List Nat :=
  let p1 : Nat × Nat := if dst ≥ 8 then (72 + 4, dst - 8) else (72, dst)
  let p2 : Nat × Nat := if src ≥ 8 then (p1.1 + 1, src - 8) else (p1.1, src)
  [p2.1, 0x31, 0xC0 + p2.2 * 8 + p1.2]

/-- `loadConstInt`: xor for zero, otherwise `REX.W B8+r imm64`. -/
def loadConstIntBytes (reg : Nat) (v : Int) : List Nat :=
  if v = 0 then xorRegBytes reg reg
  else
    let p : Nat × Nat := if reg ≥ 8 then (72 + 1, reg - 8) else (72, reg)
    p.1 :: (0xB8 + p.2) :: le64Bytes (uint64OfInt v)

/-- `emitLoadFromStack`: size-dispatched load from `[rbp + offset]`
(movzx for 1/2 bytes, 32-bit mov for 4, REX.W mov for 8 and the fallback). -/
def loadFromStackBytes (reg : Nat) (off : Int) (size : Nat) : List Nat :=
  let needsREX := reg ≥ 8
  let p : Nat × Nat := if reg ≥ 8 then (64 + 4, reg - 8) else (64, reg)
  let modrm := 0x85 + p.2 * 8
  match size with
  | 1 => (if needsREX then [p.1, 0x0F, 0xB6, modrm] else [0x0F, 0xB6, modrm]) ++
         int32Bytes off
  | 2 => (if needsREX then [p.1, 0x0F, 0xB7, modrm] else [0x0F, 0xB7, modrm]) ++
         int32Bytes off
  | 4 => (if needsREX then [p.1, 0x8B, modrm] else [0x8B, modrm]) ++
         int32Bytes off
  | 8 => [p.1 + 8, 0x8B, modrm] ++ int32Bytes off
  | _ => [p.1 + 8, 0x8B, modrm] ++ int32Bytes off

/-- `emitStoreToStack`: size-dispatched store to `[rbp + offset]` (byte
stores need REX also for registers 4-7; 2-byte stores carry the 66 prefix;
4-byte stores omit REX.W so the write is 32-bit). -/
def storeToStackBytes (reg : Nat) (off : Int) (size : Nat) : List Nat :=
  let needsREX := reg ≥ 8
  let p : Nat × Nat := if reg ≥ 8 then (64 + 4, reg - 8) else (64, reg)
  let modrm := 0x85 + p.2 * 8
  match size with
  | 1 => (if needsREX ∨ reg ≥ 4 then [p.1, 0x88, modrm] else [0x88, modrm]) ++
         int32Bytes off
  | 2 => (if needsREX then [0x66, p.1, 0x89, modrm] else [0x66, 0x89, modrm]) ++
         int32Bytes off
  | 4 => (if needsREX then [p.1, 0x89, modrm] else [0x89, modrm]) ++
         int32Bytes off
  | 8 => [p.1 + 8, 0x89, modrm] ++ int32Bytes off
  | _ => [p.1 + 8, 0x89, modrm] ++ int32Bytes off

/-- `emitFpLoadFromStack`: movss/movsd from `[rbp + offset]`. -/
def fpLoadFromStackBytes (xmm : Nat) (off : Int) (isDouble : Bool) : List Nat :=
  let pfx : Nat := if isDouble then 0xF2 else 0xF3
  let p : Nat × Nat := if xmm ≥ 8 then (0x44, xmm - 8) else (0, xmm)
  (if p.1 ≠ 0 then [pfx, p.1, 0x0F, 0x10, 0x85 + p.2 * 8]
   else [pfx, 0x0F, 0x10, 0x85 + p.2 * 8]) ++ int32Bytes off

/-- `emitXorps` (the raw bytes the source emits, including its bare
`rex` byte when a register is at least 8). -/
def xorpsBytes (dst src : Nat) : List Nat :=
  let p1 : Nat × Nat := if dst ≥ 8 then (4, dst - 8) else (0, dst)
  let p2 : Nat × Nat := if src ≥ 8 then (p1.1 + 1, src - 8) else (p1.1, src)
  if p2.1 ≠ 0 then [p2.1, 0x0F, 0x57, 0xC0 + p1.2 * 8 + p2.2]
  else [0x0F, 0x57, 0xC0 + p1.2 * 8 + p2.2]

/-- `emitLeaRipRelative`, opcode part (the 4 placeholder bytes and the PC32
relocation are appended by the caller). -/
def leaRipBytes (reg : Nat) : List Nat :=
  let p : Nat × Nat := if reg ≥ 8 then (72 + 4, reg - 8) else (72, reg)
  [p.1, 0x8D, 0x05 + p.2 * 8]

/-- `loadToReg`: constants are materialised immediately, globals become a
RIP-relative lea with a PC32 relocation (addend -4) recorded at the
displacement offset, spilled values are loaded from their frame slot sized by
their type, and a value with no assigned slot falls back to `xor reg, reg`.
Returns the bytes and the recorded relocations; `curLen` is the text length
at entry (relocation offsets are absolute). -/
def loadToRegBytes (curLen : Nat) (sm : List (VKey × Int)) (reg : Nat)
    (v : Value) : List Nat × List ARel :=
  match v with
  | .constInt _ c => (loadConstIntBytes reg c, [])
  | .global nm =>
      let lea := leaRipBytes reg
      (lea ++ [0, 0, 0, 0],
       [{ offset := curLen + lea.length, symbolName := nm, rtype := 2, addend := -4 }])
  | .arg i t =>
      match List.lookup (VKey.argK i) sm with
      | none => (xorRegBytes reg reg, [])
      | some off => (loadFromStackBytes reg off (sizeOfFull t), [])
  | .instr id t =>
      match List.lookup (VKey.instK id) sm with
      | none => (xorRegBytes reg reg, [])
      | some off => (loadFromStackBytes reg off (sizeOfFull t), [])

/-- `loadToFpReg` for non-constant values: frame-slot movss/movsd, falling
back to `xorps` when the value has no slot. -/
def loadToFpRegBytes (sm : List (VKey × Int)) (xmm : Nat) (v : Value) : List Nat :=
  match v.vkey with
  | none => xorpsBytes xmm xmm
  | some k =>
      match List.lookup k sm with
      | none => xorpsBytes xmm xmm
      | some off => fpLoadFromStackBytes xmm off (!tyIsFloat32 v.ty)

/-- `storeFromReg`: store to the destination's frame slot, sized by its type;
a destination with no slot emits nothing. -/
def storeFromRegBytes (sm : List (VKey × Int)) (reg : Nat) (dest : Value) : List Nat :=
  match dest.vkey with
  | none => []
  | some k =>
      match List.lookup k sm with
      | none => []
      | some off => storeToStackBytes reg off (sizeOfFull dest.ty)

/-! #### Instruction lowering (ops.go / controlflow.go) -/

/-- `compileInstruction` for the embedded subset, appending to the state's
text buffer, fixup list and relocation list exactly as the source does. -/
def compileInst (st : CState) : Inst → Except CompileErr CState
  | .add id ty lhs rhs =>
      let l1 := loadToRegBytes st.text.length st.sm 0 lhs
      let len1 := st.text.length + l1.1.length
      let opPart : List Nat × List ARel :=
        match rhs with
        | .constInt _ c =>
            if -128 ≤ c ∧ c ≤ 127 then ([0x48, 0x83, 0xC0, byteOfInt c], [])
            else ([0x48, 0x81, 0xC0] ++ int32Bytes c, [])
        | rv =>
            let l2 := loadToRegBytes len1 st.sm 1 rv
            (l2.1 ++ [0x48, 0x01, 0xC8], l2.2)
      let stb := storeFromRegBytes st.sm 0 (Value.instr id ty)
      .ok { st with text := st.text ++ l1.1 ++ opPart.1 ++ stb,
                    relocs := st.relocs ++ l1.2 ++ opPart.2 }
  | .load id ty ptr => do
      let l1 := loadToRegBytes st.text.length st.sm 0 ptr
      let szB ←
        match sizeOfFull ty with
        | 1 => Except.ok [0x48, 0x0F, 0xB6, 0x00]
        | 2 => Except.ok [0x48, 0x0F, 0xB7, 0x00]
        | 4 => Except.ok [0x8B, 0x00]
        | 8 => Except.ok [0x48, 0x8B, 0x00]
        | sz => Except.error (.unsupportedLoadSize sz)
      let stb := storeFromRegBytes st.sm 0 (Value.instr id ty)
      .ok { st with text := st.text ++ l1.1 ++ szB ++ stb,
                    relocs := st.relocs ++ l1.2 }
  | .ret v =>
      let body : List Nat × List ARel :=
        match v with
        | none => ([], [])
        | some rv =>
            if tyIsFloat rv.ty then (loadToFpRegBytes st.sm 0 rv, [])
            else loadToRegBytes st.text.length st.sm 0 rv
      .ok { st with text := st.text ++ body.1 ++ [0xC9, 0xC3],
                    relocs := st.relocs ++ body.2 }
  | .br t =>
      .ok { st with text := st.text ++ [0xE9] ++ [0, 0, 0, 0],
                    fixups := st.fixups ++ [{ offset := st.text.length + 1, target := t }] }
  | .condBr cv tT tF =>
      let l1 := loadToRegBytes st.text.length st.sm 0 cv
      let o1 := st.text.length + l1.1.length + 3 + 2
      let o2 := o1 + 4 + 1
      .ok { st with
        text := st.text ++ l1.1 ++ [0x48, 0x85, 0xC0] ++ [0x0F, 0x85] ++
          [0, 0, 0, 0] ++ [0xE9] ++ [0, 0, 0, 0],
        fixups := st.fixups ++
          [{ offset := o1, target := tT }, { offset := o2, target := tF }],
        relocs := st.relocs ++ l1.2 }

def compileInsts (st : CState) : List Inst → Except CompileErr CState
  | [] => .ok st
  | i :: rest => do
      let st' ← compileInst st i
      compileInsts st' rest

/-- The body loop of `compileFunction`: record each block's label offset
(the current text length), then lower its instructions. -/
def compileBlocks (st : CState) : List Block → Except CompileErr CState
  | [] => .ok st
  | b :: rest => do
      let st' ← compileInsts
        { st with blockOffsets := (b.bid, st.text.length) :: st.blockOffsets }
        b.insts
      compileBlocks st' rest

/-! #### Frame layout, prologue, argument save -/

/-- System V integer argument registers RDI, RSI, RDX, RCX, R8, R9. -/
def regArgs : List Nat := [7, 6, 2, 1, 8, 9]

/-- Variant-B slot allocation: minimum slot 8 bytes, align the running
offset to the slot size, then advance; the slot is `-offset` from rbp. -/
def allocSlotB (acc : Nat × List (VKey × Int)) (k : VKey) (sz0 : Nat) :
    Nat × List (VKey × Int) :=
  let sz := if sz0 < 8 then 8 else sz0
  let off0 := if acc.1 % sz ≠ 0 then acc.1 + (sz - acc.1 % sz) else acc.1
  let off := off0 + sz
  (off, (k, -(off : Int)) :: acc.2)

def allocArgsB (acc : Nat × List (VKey × Int)) (i : Nat) :
    List Ty → Nat × List (VKey × Int)
  | [] => acc
  | t :: rest => allocArgsB (allocSlotB acc (.argK i) (sizeOfFull t)) (i + 1) rest

def allocInstsB (acc : Nat × List (VKey × Int)) :
    List Inst → Nat × List (VKey × Int)
  | [] => acc
  | i :: rest =>
      allocInstsB
        (match i.resultKeyTy with
         | some (k, t) =>
             if tyIsVoid t then acc else allocSlotB acc k (sizeOfFull t)
         | none => acc)
        rest

def allocBlocksB (acc : Nat × List (VKey × Int)) :
    List Block → Nat × List (VKey × Int)
  | [] => acc
  | b :: rest => allocBlocksB (allocInstsB acc b.insts) rest

/-- Variant-B stack layout: arguments, then value-producing instructions
(the modelled subset has no allocas, so the alloca region is empty), padded
to a 16-byte frame. -/
def phase1B (fn : Fn) : List (VKey × Int) × Nat :=
  let a := allocBlocksB (allocArgsB (0, []) 0 fn.args) fn.blocks
  let frame := if a.1 % 16 ≠ 0 then a.1 + (16 - a.1 % 16) else a.1
  (a.2, frame)

/-- `emitPrologue` (variant B): push rbp; mov rbp, rsp; sub rsp, frame with
the imm8 form when the frame fits in 127 bytes. -/
def prologueBytesB (frame : Nat) : List Nat :=
  [0x55, 0x48, 0x89, 0xE5] ++
  (if frame = 0 then []
   else if frame ≤ 127 then [0x48, 0x83, 0xEC, frame % 256]
   else [0x48, 0x81, 0xEC] ++ le32Bytes frame)

/-- `emitArgSave` (variant B): the first six arguments are stored from their
registers (sized by type, skipped above 8 bytes); later arguments are copied
from `[rbp + 16 + 8*(i-6)]` through RAX. -/
def argSaveB (sm : List (VKey × Int)) (i : Nat) : List Ty → List Nat
  | [] => []
  | t :: rest =>
      let off := (List.lookup (VKey.argK i) sm).getD 0
      let size := sizeOfFull t
      (if i < 6 then
        (if size ≤ 8 then storeToStackBytes (regArgs.getD i 0) off size else [])
       else
        let srcOff : Int := 16 + (i - 6) * 8
        (if size = 4 then [0x8B, 0x85] ++ int32Bytes srcOff
         else [0x48, 0x8B, 0x85] ++ int32Bytes srcOff) ++
        storeToStackBytes 0 off size) ++
      argSaveB sm (i + 1) rest

/-- The state of variant-B `compileFunction` after the body pass (before
`applyFixups`). -/
def bodyPhaseB (fn : Fn) : Except CompileErr CState :=
  let p := phase1B fn
  compileBlocks
    { text := prologueBytesB p.2 ++ argSaveB p.1 0 fn.args,
      fixups := [], relocs := [], blockOffsets := [], sm := p.1 } fn.blocks

/-! #### Fixup passes -/

/-- `uint32(rel)` for `rel = targetOff - (fixOff + 4)`: the little-endian
patch value, as a two's-complement 32-bit quantity. -/
def relVal (targetOff fixOff : Nat) : Nat :=
  (((targetOff : Int) - ((fixOff : Int) + 4)) % 4294967296).toNat

/-- `binary.LittleEndian.PutUint32(text[off:], v)` under the in-bounds
conditions the pipeline guarantees. -/
def writeLE32At (text : List Nat) (off : Nat) (v : Nat) : List Nat :=
  text.take off ++ le32Bytes v ++ text.drop (off + 4)

/-- `applyFixups` (variant B): patch each fixup whose target has a recorded
offset; a missing target is silently skipped (the code comments "should not
happen" and continues). -/
def applyFixupsList (text : List Nat) (fs : List Fixup)
    (bo : List (Nat × Nat)) : List Nat :=
  match fs with
  | [] => text
  | f :: rest =>
      match List.lookup f.target bo with
      | none => applyFixupsList text rest bo
      | some t => applyFixupsList (writeLE32At text f.offset (relVal t f.offset)) rest bo

def compileFunctionB (fn : Fn) : Except CompileErr (List Nat) := do
  let st ← bodyPhaseB fn
  Except.ok (applyFixupsList st.text st.fixups st.blockOffsets)

/-! #### The sibling `compileFunction` variant (variant A) -/

/-- Variant-A slot allocation: minimum 8 bytes, no alignment step. -/
def allocSlotA (acc : Nat × List (VKey × Int)) (k : VKey) (sz0 : Nat) :
    Nat × List (VKey × Int) :=
  let sz := if sz0 < 8 then 8 else sz0
  let off := acc.1 + sz
  (off, (k, -(off : Int)) :: acc.2)

def allocArgsA (acc : Nat × List (VKey × Int)) (i : Nat) :
    List Ty → Nat × List (VKey × Int)
  | [] => acc
  | _ :: rest => allocArgsA (allocSlotA acc (.argK i) 8) (i + 1) rest

def allocInstsA (acc : Nat × List (VKey × Int)) :
    List Inst → Nat × List (VKey × Int)
  | [] => acc
  | i :: rest =>
      allocInstsA
        (match i.resultKeyTy with
         | some (k, t) =>
             if tyIsVoid t then acc else allocSlotA acc k (sizeOfFull t)
         | none => acc)
        rest

def allocBlocksA (acc : Nat × List (VKey × Int)) :
    List Block → Nat × List (VKey × Int)
  | [] => acc
  | b :: rest => allocBlocksA (allocInstsA acc b.insts) rest

def phase1A (fn : Fn) : List (VKey × Int) × Nat :=
  let a := allocBlocksA (allocArgsA (0, []) 0 fn.args) fn.blocks
  let frame := if a.1 % 16 ≠ 0 then a.1 + (16 - a.1 % 16) else a.1
  (a.2, frame)

/-- Variant-A prologue: always the imm32 form of `sub rsp`. -/
def prologueBytesA (frame : Nat) : List Nat :=
  [0x55, 0x48, 0x89, 0xE5] ++
  (if frame > 0 then [0x48, 0x81, 0xEC] ++ le32Bytes frame else [])

/-- Variant-A argument save: only the first six arguments, stored with the
8-byte `emitStoreReg` of its sibling helper file. -/
def argSaveA (sm : List (VKey × Int)) (i : Nat) : List Ty → List Nat
  | [] => []
  | _ :: rest =>
      (if i < 6 then
        storeToStackBytes (regArgs.getD i 0)
          ((List.lookup (VKey.argK i) sm).getD 0) 8
       else []) ++
      argSaveA sm (i + 1) rest

def bodyPhaseA (fn : Fn) : Except CompileErr CState :=
  let p := phase1A fn
  compileBlocks
    { text := prologueBytesA p.2 ++ argSaveA p.1 0 fn.args,
      fixups := [], relocs := [], blockOffsets := [], sm := p.1 } fn.blocks

/-- The inline fixup loop of variant-A `compileFunction`: a fixup whose
target block has no recorded offset aborts compilation with a
missing-label error. -/
def fixupLoopA (text : List Nat) (fs : List Fixup)
    (bo : List (Nat × Nat)) : Except CompileErr (List Nat) :=
  match fs with
  | [] => .ok text
  | f :: rest =>
      match List.lookup f.target bo with
      | none => .error (.missingLabel f.target)
      | some t => fixupLoopA (writeLE32At text f.offset (relVal t f.offset)) rest bo

def compileFunctionA (fn : Fn) : Except CompileErr (List Nat) := do
  let st ← bodyPhaseA fn
  fixupLoopA st.text st.fixups st.blockOffsets

/-- Whether an `Except` carries a success value. -/
def exceptIsOk {ε α : Type} : Except ε α → Bool
  | .ok _ => true
  | .error _ => false

/-- The bytes of a 4-byte region: `text[off : off+4]`. -/
def sliceBytes (l : List Nat) (off n : Nat) : List Nat := (l.drop off).take n

/-! #### The fixup-placement invariant

Fixups are recorded at the current text length and immediately followed by
their 4 placeholder bytes, so the fixup list is ordered, the 4-byte regions
are disjoint, and every region lies inside the text.  `FixChain lo fs hi`
says the regions of `fs` fit, in order, between `lo` and `hi`. -/

def FixChain (lo : Nat) : List Fixup → Nat → Prop
  | [], hi => lo ≤ hi
  | f :: fs, hi => lo ≤ f.offset ∧ FixChain (f.offset + 4) fs hi

theorem fixChain_le {lo hi : Nat} {fs : List Fixup} (h : FixChain lo fs hi) :
    lo ≤ hi := by
  induction fs generalizing lo with
  | nil => exact h
  | cons f rest ih =>
      obtain ⟨h1, h2⟩ := h
      have := ih h2
      omega

theorem fixChain_mono {lo lo' hi hi' : Nat} {fs : List Fixup}
    (h : FixChain lo fs hi) (hl : lo' ≤ lo) (hh : hi ≤ hi') :
    FixChain lo' fs hi' := by
  induction fs generalizing lo lo' with
  | nil => simp only [FixChain] at *; omega
  | cons f rest ih =>
      obtain ⟨h1, h2⟩ := h
      exact ⟨by omega, ih h2 (le_refl _)⟩

theorem fixChain_append {lo mid hi : Nat} {fs1 fs2 : List Fixup}
    (h1 : FixChain lo fs1 mid) (h2 : FixChain mid fs2 hi) :
    FixChain lo (fs1 ++ fs2) hi := by
  induction fs1 generalizing lo with
  | nil =>
      simp only [FixChain] at h1
      exact fixChain_mono h2 h1 (le_refl _)
  | cons f rest ih =>
      obtain ⟨ha, hb⟩ := h1
      exact ⟨ha, ih hb⟩

theorem fixChain_mem {lo hi : Nat} {fs : List Fixup} {f : Fixup}
    (h : FixChain lo fs hi) (hf : f ∈ fs) :
    lo ≤ f.offset ∧ f.offset + 4 ≤ hi := by
  induction fs generalizing lo with
  | nil => cases hf
  | cons g rest ih =>
      obtain ⟨h1, h2⟩ := h
      rcases List.mem_cons.mp hf with rfl | hmem
      · exact ⟨h1, fixChain_le h2⟩
      · have := ih h2 hmem
        omega

/-! #### Patch-region lemmas -/

theorem le32Bytes_length (v : Nat) : (le32Bytes v).length = 4 := rfl

theorem writeLE32At_length (text : List Nat) (off v : Nat)
    (h : off + 4 ≤ text.length) :
    (writeLE32At text off v).length = text.length := by
  simp [writeLE32At, le32Bytes]
  omega

theorem writeLE32At_take (text : List Nat) (off v n : Nat) (hn : n ≤ off)
    (hb : off + 4 ≤ text.length) :
    (writeLE32At text off v).take n = text.take n := by
  unfold writeLE32At
  rw [List.append_assoc, List.take_append_eq_append_take]
  have hA : (text.take off).length = off := by
    rw [List.length_take]; omega
  rw [hA]
  have hz : n - off = 0 := by omega
  rw [hz, List.take_zero, List.append_nil, List.take_take]
  rw [Nat.min_eq_left hn]

theorem writeLE32At_drop (text : List Nat) (off v k : Nat) (hk : off + 4 ≤ k)
    (hb : off + 4 ≤ text.length) :
    (writeLE32At text off v).drop k = text.drop k := by
  unfold writeLE32At
  rw [List.append_assoc, List.drop_append_eq_append_drop,
    List.drop_append_eq_append_drop]
  have hA : (text.take off).length = off := by
    rw [List.length_take]; omega
  have hB : (le32Bytes v).length = 4 := rfl
  rw [hA, hB]
  have h1 : (text.take off).drop k = [] := by
    apply List.drop_eq_nil_of_le
    rw [hA]; omega
  have h2 : (le32Bytes v).drop (k - off) = [] := by
    apply List.drop_eq_nil_of_le
    rw [hB]; omega
  rw [h1, h2, List.drop_drop]
  simp only [List.nil_append]
  congr 1
  omega

theorem sliceBytes_writeLE32At_self (text : List Nat) (off v : Nat)
    (hb : off + 4 ≤ text.length) :
    sliceBytes (writeLE32At text off v) off 4 = le32Bytes v := by
  unfold sliceBytes writeLE32At
  rw [List.append_assoc, List.drop_append_eq_append_drop]
  have hA : (text.take off).length = off := by
    rw [List.length_take]; omega
  have h1 : (text.take off).drop off = [] := by
    apply List.drop_eq_nil_of_le
    rw [hA]
  rw [hA, h1]
  have hz : off - off = 0 := by omega
  rw [hz, List.drop_zero, List.nil_append, List.take_append_eq_append_take]
  have hB : (le32Bytes v).length = 4 := rfl
  rw [hB]
  have h4 : (4 : Nat) - 4 = 0 := rfl
  rw [h4, List.take_zero, List.append_nil, List.take_of_length_le (by rw [hB])]

theorem sliceBytes_writeLE32At_before (text : List Nat) (off off2 v : Nat)
    (h : off + 4 ≤ off2) (hb : off2 + 4 ≤ text.length) :
    sliceBytes (writeLE32At text off2 v) off 4 = sliceBytes text off 4 := by
  have hto : ∀ l : List Nat, sliceBytes l off 4 = (l.take (off + 4)).drop off := by
    intro l
    unfold sliceBytes
    rw [List.drop_take]
    congr 1
    omega
  rw [hto, hto, writeLE32At_take text off2 v (off + 4) h hb]

/-! #### Behaviour of the fixup pass under the placement invariant -/

theorem applyFixupsList_length (text : List Nat) (fs : List Fixup)
    (bo : List (Nat × Nat)) (lo : Nat) (hchain : FixChain lo fs text.length) :
    (applyFixupsList text fs bo).length = text.length := by
  induction fs generalizing text lo with
  | nil => rfl
  | cons f rest ih =>
      obtain ⟨h1, h2⟩ := hchain
      have hin : f.offset + 4 ≤ text.length := fixChain_le h2
      rw [applyFixupsList]
      cases hlk : List.lookup f.target bo with
      | none => exact ih text _ h2
      | some t =>
          have hlen := writeLE32At_length text f.offset (relVal t f.offset) hin
          rw [ih _ _ (by rw [hlen]; exact h2), hlen]

theorem applyFixupsList_take (text : List Nat) (fs : List Fixup)
    (bo : List (Nat × Nat)) (n : Nat) (hchain : FixChain n fs text.length) :
    (applyFixupsList text fs bo).take n = text.take n := by
  induction fs generalizing text with
  | nil => rfl
  | cons f rest ih =>
      obtain ⟨h1, h2⟩ := hchain
      have hin : f.offset + 4 ≤ text.length := fixChain_le h2
      rw [applyFixupsList]
      cases hlk : List.lookup f.target bo with
      | none => exact ih text (fixChain_mono h2 (by omega) (le_refl _))
      | some t =>
          have hlen := writeLE32At_length text f.offset (relVal t f.offset) hin
          rw [ih _ (by rw [hlen]; exact fixChain_mono h2 (by omega) (le_refl _))]
          exact writeLE32At_take text f.offset _ n h1 hin

theorem applyFixupsList_drop (text : List Nat) (fs : List Fixup)
    (bo : List (Nat × Nat)) (lo k : Nat) (hchain : FixChain lo fs k)
    (hk : k ≤ text.length) :
    (applyFixupsList text fs bo).drop k = text.drop k := by
  induction fs generalizing text lo with
  | nil => rfl
  | cons f rest ih =>
      obtain ⟨h1, h2⟩ := hchain
      have hfk : f.offset + 4 ≤ k := fixChain_le h2
      have hin : f.offset + 4 ≤ text.length := by omega
      rw [applyFixupsList]
      cases hlk : List.lookup f.target bo with
      | none => exact ih text _ h2 hk
      | some t =>
          have hlen := writeLE32At_length text f.offset (relVal t f.offset) hin
          rw [ih _ _ h2 (by omega : k ≤ (writeLE32At text f.offset (relVal t f.offset)).length)]
          exact writeLE32At_drop text f.offset _ k hfk hin

theorem applyFixupsList_slice_preserved (text : List Nat) (fs : List Fixup)
    (bo : List (Nat × Nat)) (off : Nat)
    (hchain : FixChain (off + 4) fs text.length) :
    sliceBytes (applyFixupsList text fs bo) off 4 = sliceBytes text off 4 := by
  induction fs generalizing text with
  | nil => rfl
  | cons f rest ih =>
      obtain ⟨h1, h2⟩ := hchain
      have hin : f.offset + 4 ≤ text.length := fixChain_le h2
      rw [applyFixupsList]
      cases hlk : List.lookup f.target bo with
      | none => exact ih text (fixChain_mono h2 (by omega) (le_refl _))
      | some t =>
          have hlen := writeLE32At_length text f.offset (relVal t f.offset) hin
          rw [ih _ (by rw [hlen]; exact fixChain_mono h2 (by omega) (le_refl _))]
          exact sliceBytes_writeLE32At_before text off f.offset _ h1 hin

/-- The heart of C7: under the placement invariant, the fixup pass leaves the
little-endian patch value in the 4-byte region of every fixup whose target
has a recorded offset. -/
theorem applyFixupsList_slice (text : List Nat) (fs : List Fixup)
    (bo : List (Nat × Nat)) (lo : Nat) (f : Fixup) (t : Nat)
    (hchain : FixChain lo fs text.length) (hf : f ∈ fs)
    (ht : List.lookup f.target bo = some t) :
    sliceBytes (applyFixupsList text fs bo) f.offset 4 =
      le32Bytes (relVal t f.offset) := by
  induction fs generalizing text lo with
  | nil => cases hf
  | cons g rest ih =>
      obtain ⟨h1, h2⟩ := hchain
      have hin : g.offset + 4 ≤ text.length := fixChain_le h2
      rw [applyFixupsList]
      rcases List.mem_cons.mp hf with rfl | hmem
      · rw [ht]
        have hlen := writeLE32At_length text f.offset (relVal t f.offset) hin
        rw [applyFixupsList_slice_preserved _ rest bo f.offset
          (by rw [hlen]; exact h2)]
        exact sliceBytes_writeLE32At_self text f.offset _ hin
      · cases hlk : List.lookup g.target bo with
        | none => exact ih text _ h2 hmem
        | some tg =>
            have hlen := writeLE32At_length text g.offset (relVal tg g.offset) hin
            exact ih _ _ (by rw [hlen]; exact h2) hmem

/-! #### Shape of the body emission

Every instruction lowering only appends to the text buffer, records its
fixups at offsets just past the bytes already emitted (each immediately
followed by its 4 placeholder bytes), and leaves the stack map untouched. -/

def EmitsFrom (st st' : CState) : Prop :=
  st'.sm = st.sm ∧
  st.text.length ≤ st'.text.length ∧
  st'.text.take st.text.length = st.text ∧
  (∃ nf, st'.fixups = st.fixups ++ nf ∧
    FixChain st.text.length nf st'.text.length)

theorem emitsFrom_refl (st : CState) : EmitsFrom st st :=
  ⟨rfl, le_refl _, List.take_of_length_le (le_refl _), ⟨[], by simp, le_refl _⟩⟩

theorem emitsFrom_trans {a b c : CState} (h1 : EmitsFrom a b)
    (h2 : EmitsFrom b c) : EmitsFrom a c := by
  obtain ⟨hs1, hl1, ht1, ⟨n1, hf1, hc1⟩⟩ := h1
  obtain ⟨hs2, hl2, ht2, ⟨n2, hf2, hc2⟩⟩ := h2
  refine ⟨hs2.trans hs1, by omega, ?_, ⟨n1 ++ n2,
    by rw [hf2, hf1, List.append_assoc], fixChain_append hc1 hc2⟩⟩
  have hmid : List.take a.text.length c.text =
      List.take a.text.length (List.take b.text.length c.text) := by
    rw [List.take_take, Nat.min_eq_left hl1]
  rw [hmid, ht2]
  exact ht1

theorem compileInst_shape (st : CState) (i : Inst) (st' : CState)
    (h : compileInst st i = .ok st') : EmitsFrom st st' := by
  cases i with
  | add id ty lhs rhs =>
      simp only [compileInst] at h
      injection h with h
      subst h
      refine ⟨rfl, by simp only [List.length_append]; omega, ?_,
        ⟨[], by simp, ?_⟩⟩
      · simp only [List.append_assoc]
        exact List.take_left _ _
      · show FixChain _ [] _
        simp only [FixChain, List.length_append]
        omega
  | load id ty ptr =>
      simp only [compileInst, bind, Except.bind] at h
      split at h
      all_goals first
        | (injection h with h; subst h;
           refine ⟨rfl, by simp only [List.length_append]; omega, ?_,
             ⟨[], by simp, ?_⟩⟩ <;>
           first
             | (simp only [List.append_assoc]; exact List.take_left _ _)
             | (show FixChain _ [] _;
                simp only [FixChain, List.length_append]; omega))
        | cases h
  | ret v =>
      simp only [compileInst] at h
      injection h with h
      subst h
      refine ⟨rfl, by simp only [List.length_append]; omega, ?_,
        ⟨[], by simp, ?_⟩⟩
      · simp only [List.append_assoc]
        exact List.take_left _ _
      · show FixChain _ [] _
        simp only [FixChain, List.length_append]
        omega
  | br t =>
      simp only [compileInst] at h
      injection h with h
      subst h
      refine ⟨rfl, by simp only [List.length_append]; omega, ?_,
        ⟨[{ offset := st.text.length + 1, target := t }], by simp, ?_⟩⟩
      · simp only [List.append_assoc]
        exact List.take_left _ _
      · show FixChain _ [_] _
        refine ⟨by dsimp only; omega, ?_⟩
        show _ + 4 ≤ _
        dsimp only
        simp only [List.length_append, List.length_cons, List.length_nil]
        omega
  | condBr cv tT tF =>
      simp only [compileInst] at h
      injection h with h
      subst h
      refine ⟨rfl, by simp only [List.length_append]; omega, ?_,
        ⟨[{ offset := st.text.length +
              (loadToRegBytes st.text.length st.sm 0 cv).1.length + 3 + 2,
            target := tT },
          { offset := st.text.length +
              (loadToRegBytes st.text.length st.sm 0 cv).1.length + 3 + 2 + 4 + 1,
            target := tF }], by simp, ?_⟩⟩
      · simp only [List.append_assoc]
        exact List.take_left _ _
      · show FixChain _ [_, _] _
        refine ⟨by dsimp only; omega, by dsimp only; omega, ?_⟩
        show _ + 4 ≤ _
        dsimp only
        simp only [List.length_append, List.length_cons, List.length_nil]
        omega

theorem compileInsts_shape (l : List Inst) (st st' : CState)
    (h : compileInsts st l = .ok st') : EmitsFrom st st' := by
  induction l generalizing st with
  | nil =>
      simp only [compileInsts] at h
      injection h with h
      subst h
      exact emitsFrom_refl st
  | cons i rest ih =>
      simp only [compileInsts, bind, Except.bind] at h
      cases hi : compileInst st i with
      | error e => rw [hi] at h; cases h
      | ok st1 =>
          rw [hi] at h
          exact emitsFrom_trans (compileInst_shape st i st1 hi) (ih st1 h)

theorem compileBlocks_shape (l : List Block) (st st' : CState)
    (h : compileBlocks st l = .ok st') : EmitsFrom st st' := by
  induction l generalizing st with
  | nil =>
      simp only [compileBlocks] at h
      injection h with h
      subst h
      exact emitsFrom_refl st
  | cons b rest ih =>
      simp only [compileBlocks, bind, Except.bind] at h
      cases hi : compileInsts
          { st with blockOffsets := (b.bid, st.text.length) :: st.blockOffsets }
          b.insts with
      | error e => rw [hi] at h; cases h
      | ok st1 =>
          rw [hi] at h
          have step0 : EmitsFrom st
              { st with blockOffsets := (b.bid, st.text.length) :: st.blockOffsets } :=
            ⟨rfl, le_refl _, List.take_length st.text, ⟨[], by simp, le_refl _⟩⟩
          have step1 := compileInsts_shape _ _ _ hi
          exact emitsFrom_trans (emitsFrom_trans step0 step1) (ih st1 h)

theorem compileInsts_append_ok (l1 l2 : List Inst) (st st' : CState)
    (h : compileInsts st (l1 ++ l2) = .ok st') :
    ∃ st1, compileInsts st l1 = .ok st1 ∧ compileInsts st1 l2 = .ok st' := by
  induction l1 generalizing st with
  | nil => exact ⟨st, rfl, h⟩
  | cons i rest ih =>
      rw [List.cons_append] at h
      simp only [compileInsts, bind, Except.bind] at h ⊢
      cases hi : compileInst st i with
      | error e => rw [hi] at h; cases h
      | ok st1 =>
          rw [hi] at h
          exact ih st1 h

theorem compileBlocks_append_ok (l1 l2 : List Block) (st st' : CState)
    (h : compileBlocks st (l1 ++ l2) = .ok st') :
    ∃ st1, compileBlocks st l1 = .ok st1 ∧ compileBlocks st1 l2 = .ok st' := by
  induction l1 generalizing st with
  | nil => exact ⟨st, rfl, h⟩
  | cons b rest ih =>
      rw [List.cons_append] at h
      simp only [compileBlocks, bind, Except.bind] at h ⊢
      cases hi : compileInsts
          { st with blockOffsets := (b.bid, st.text.length) :: st.blockOffsets }
          b.insts with
      | error e => rw [hi] at h; cases h
      | ok st1 =>
          rw [hi] at h
          exact ih st1 h

/-- The first four bytes of the variant-B function text are the prologue's
`push rbp; mov rbp, rsp`, whatever the frame size and argument save add. -/
theorem prologueB_take4 (frame : Nat) (extra : List Nat) :
    4 ≤ (prologueBytesB frame ++ extra).length ∧
    (prologueBytesB frame ++ extra).take 4 = [0x55, 0x48, 0x89, 0xE5] := by
  unfold prologueBytesB
  rw [List.append_assoc]
  constructor
  · simp [List.length_append]
  · rfl

theorem compileFunctionB_inv (fn : Fn) (bs : List Nat)
    (h : compileFunctionB fn = .ok bs) :
    ∃ st, bodyPhaseB fn = .ok st ∧
      bs = applyFixupsList st.text st.fixups st.blockOffsets := by
  simp only [compileFunctionB, bind, Except.bind] at h
  cases hb : bodyPhaseB fn with
  | error e => rw [hb] at h; cases h
  | ok st =>
      rw [hb] at h
      injection h with h
      exact ⟨st, rfl, h.symm⟩

/-- The placement invariant holds of the state the variant-B body pass
produces: all fixups live, in order and 4 bytes apart, past the 4 prologue
bytes and inside the emitted text. -/
theorem bodyPhaseB_chain (fn : Fn) (st : CState)
    (h : bodyPhaseB fn = .ok st) :
    FixChain 4 st.fixups st.text.length ∧
    st.text.take 4 = [0x55, 0x48, 0x89, 0xE5] := by
  have hshape : EmitsFrom
      { text := prologueBytesB (phase1B fn).2 ++ argSaveB (phase1B fn).1 0 fn.args,
        fixups := [], relocs := [], blockOffsets := [], sm := (phase1B fn).1 } st :=
    compileBlocks_shape fn.blocks _ st h
  obtain ⟨hsm, hlen, htake, ⟨nf, hfix, hchain⟩⟩ := hshape
  obtain ⟨hp4, hptake⟩ := prologueB_take4 (phase1B fn).2
    (argSaveB (phase1B fn).1 0 fn.args)
  constructor
  · rw [hfix]
    simp only [List.nil_append]
    exact fixChain_mono hchain hp4 (le_refl _)
  · have h4 : st.text.take 4 =
        (st.text.take (prologueBytesB (phase1B fn).2 ++
          argSaveB (phase1B fn).1 0 fn.args).length).take 4 := by
      rw [List.take_take, Nat.min_eq_left hp4]
    rw [h4, htake]
    exact hptake

/-- Whether the final instruction of the final block is a Ret. -/
def lastInstIsRet (fn : Fn) : Bool :=
  match fn.blocks.getLast? with
  | some b =>
      match b.insts.getLast? with
      | some (.ret _) => true
      | _ => false
  | none => false


/-- C6 (amended): for every function with a non-empty body that the
variant-B `compileFunction` compiles without error, the emitted bytes begin
with `55 48 89 E5` (push rbp; mov rbp, rsp); and they end with `C9 C3`
(leave; ret) whenever the final instruction of the final block is a Ret — a
function whose last block ends in a branch instead ends with the branch's
patched displacement bytes. -/
theorem compiled_prologue_epilogue (fn : Fn) (bs : List Nat)
    (hne : fn.blocks ≠ []) (h : compileFunctionB fn = .ok bs) :
    bs.take 4 = [0x55, 0x48, 0x89, 0xE5] ∧
    (lastInstIsRet fn = true → bs.drop (bs.length - 2) = [0xC9, 0xC3]) := by
  obtain ⟨st, hbody, hbs⟩ := compileFunctionB_inv fn bs h
  obtain ⟨hchain, htake4⟩ := bodyPhaseB_chain fn st hbody
  constructor
  · rw [hbs, applyFixupsList_take st.text st.fixups st.blockOffsets 4 hchain]
    exact htake4
  · intro hret
    unfold lastInstIsRet at hret
    cases hgb : fn.blocks.getLast? with
    | none => rw [hgb] at hret; simp at hret
    | some lb =>
        rw [hgb] at hret
        have hret2 : (match lb.insts.getLast? with
            | some (Inst.ret _) => true
            | _ => false) = true := hret
        clear hret
        cases hgi : lb.insts.getLast? with
        | none => rw [hgi] at hret2; simp at hret2
        | some li =>
            rw [hgi] at hret2
            cases li with
            | add id ty lhs rhs => simp at hret2
            | load id ty ptr => simp at hret2
            | br t => simp at hret2
            | condBr cv tT tF => simp at hret2
            | ret v =>
                clear hret2
                have hlbeq : fn.blocks.dropLast ++ [lb] = fn.blocks := by
                  have h1 := List.dropLast_append_getLast hne
                  have h2 : fn.blocks.getLast hne = lb := by
                    have h3 := List.getLast?_eq_getLast fn.blocks hne
                    rw [h3] at hgb
                    injection hgb
                  rw [h2] at h1
                  exact h1
                have hine : lb.insts ≠ [] := by
                  intro hx
                  rw [hx] at hgi
                  cases hgi
                have hieq : lb.insts.dropLast ++ [Inst.ret v] = lb.insts := by
                  have h1 := List.dropLast_append_getLast hine
                  have h2 : lb.insts.getLast hine = Inst.ret v := by
                    have h3 := List.getLast?_eq_getLast lb.insts hine
                    rw [h3] at hgi
                    injection hgi
                  rw [h2] at h1
                  exact h1
                rw [show bodyPhaseB fn = compileBlocks
                    { text := prologueBytesB (phase1B fn).2 ++
                        argSaveB (phase1B fn).1 0 fn.args,
                      fixups := [], relocs := [], blockOffsets := [],
                      sm := (phase1B fn).1 } fn.blocks from rfl] at hbody
                rw [← hlbeq] at hbody
                obtain ⟨st1, hA, hB⟩ := compileBlocks_append_ok _ _ _ _ hbody
                simp only [compileBlocks, bind, Except.bind] at hB
                cases hi2 : compileInsts
                    { st1 with blockOffsets :=
                        (lb.bid, st1.text.length) :: st1.blockOffsets }
                    lb.insts with
                | error e => rw [hi2] at hB; cases hB
                | ok st2 =>
                    rw [hi2] at hB
                    injection hB with hB
                    rw [← hieq] at hi2
                    obtain ⟨st3, hC, hD⟩ := compileInsts_append_ok _ _ _ _ hi2
                    simp only [compileInsts, compileInst, bind, Except.bind] at hD
                    injection hD with hD
                    have hsh0 : EmitsFrom
                        { text := prologueBytesB (phase1B fn).2 ++
                            argSaveB (phase1B fn).1 0 fn.args,
                          fixups := [], relocs := [], blockOffsets := [],
                          sm := (phase1B fn).1 } st1 :=
                      compileBlocks_shape _ _ _ hA
                    have hsh1 : EmitsFrom st1
                        { st1 with blockOffsets :=
                            (lb.bid, st1.text.length) :: st1.blockOffsets } :=
                      ⟨rfl, le_refl _, List.take_length st1.text,
                        ⟨[], by simp, le_refl _⟩⟩
                    have hsh2 := compileInsts_shape _ _ _ hC
                    have hsh : EmitsFrom
                        { text := prologueBytesB (phase1B fn).2 ++
                            argSaveB (phase1B fn).1 0 fn.args,
                          fixups := [], relocs := [], blockOffsets := [],
                          sm := (phase1B fn).1 } st3 :=
                      emitsFrom_trans (emitsFrom_trans hsh0 hsh1) hsh2
                    obtain ⟨hsm3, hlen3, htk3, ⟨nf, hfix3, hchain3⟩⟩ := hsh
                    obtain ⟨hp4, hptake⟩ := prologueB_take4 (phase1B fn).2
                      (argSaveB (phase1B fn).1 0 fn.args)
                    have hchainK : FixChain 4 st3.fixups st3.text.length := by
                      rw [hfix3]
                      simp only [List.nil_append]
                      exact fixChain_mono hchain3 hp4 (le_refl _)
                    have hst : st = { st3 with
                        text := st3.text ++
                          (match v with
                           | none => ([], [])
                           | some rv =>
                               if tyIsFloat rv.ty then
                                 (loadToFpRegBytes st3.sm 0 rv, [])
                               else loadToRegBytes st3.text.length st3.sm 0 rv).1 ++
                          [0xC9, 0xC3],
                        relocs := st3.relocs ++
                          (match v with
                           | none => ([], [])
                           | some rv =>
                               if tyIsFloat rv.ty then
                                 (loadToFpRegBytes st3.sm 0 rv, [])
                               else loadToRegBytes st3.text.length st3.sm 0 rv).2 } := by
                      rw [← hB, ← hD]
                    subst hst
                    set B := (match v with
                       | none => ([], [])
                       | some rv =>
                           if tyIsFloat rv.ty then
                             (loadToFpRegBytes st3.sm 0 rv, [])
                           else loadToRegBytes st3.text.length st3.sm 0 rv).1 with hBdef
                    have hKle : st3.text.length ≤
                        (st3.text ++ B ++ [0xC9, 0xC3]).length := by
                      simp [List.length_append]
                    have hdrop : (applyFixupsList (st3.text ++ B ++ [0xC9, 0xC3])
                          st3.fixups st3.blockOffsets).drop st3.text.length =
                        (st3.text ++ B ++ [0xC9, 0xC3]).drop st3.text.length :=
                      applyFixupsList_drop _ _ _ 4 _ hchainK hKle
                    have hsfx : (st3.text ++ B ++ [0xC9, 0xC3]).drop st3.text.length =
                        B ++ [0xC9, 0xC3] := by
                      rw [List.append_assoc]
                      exact List.drop_left _ _
                    have hblen : (applyFixupsList (st3.text ++ B ++ [0xC9, 0xC3])
                          st3.fixups st3.blockOffsets).length =
                        (st3.text ++ B ++ [0xC9, 0xC3]).length :=
                      applyFixupsList_length _ _ _ 4
                        (fixChain_mono hchainK (le_refl _) hKle)
                    dsimp only at hbs
                    rw [hbs]
                    have hlens : (st3.text ++ B ++ [0xC9, 0xC3]).length =
                        st3.text.length + B.length + 2 := by
                      simp [List.length_append]
                      omega
                    rw [hblen, hlens]
                    have hidx : st3.text.length + B.length + 2 - 2 =
                        st3.text.length + B.length := by omega
                    rw [hidx, ← List.drop_drop, hdrop, hsfx]
                    exact List.drop_left _ _

/-! ### Concrete functions for the control-flow claims -/

/-- A function whose single block branches back to itself (an infinite
loop): valid IR, compiles without error, ends in a jump. -/
def loopFn : Fn := { args := [], blocks := [{ bid := 0, insts := [Inst.br 0] }] }

/-- A function whose single block branches to a block id that does not
exist in the function: its fixup target never gets a recorded offset. -/
def danglingFn : Fn :=
  { args := [], blocks := [{ bid := 0, insts := [Inst.br 99] }] }

/-- A function whose single block is a bare `ret`. -/
def retFn : Fn := { args := [], blocks := [{ bid := 0, insts := [Inst.ret none] }] }

/-- C6 counterexample: `loopFn` has a non-empty body and compiles without
error, yet its bytes end with `FF FF` (the tail of the patched backward-jump
displacement `E9 FB FF FF FF`), not `C9 C3`. -/
theorem loopFn_not_ret_terminated :
    compileFunctionB loopFn =
      Except.ok [0x55, 0x48, 0x89, 0xE5, 0xE9, 0xFB, 0xFF, 0xFF, 0xFF] ∧
    loopFn.blocks ≠ [] ∧
    [0x55, 0x48, 0x89, 0xE5, 0xE9, 0xFB, 0xFF, 0xFF, 0xFF].drop
        ([0x55, 0x48, 0x89, 0xE5, 0xE9, 0xFB, 0xFF, 0xFF, 0xFF].length - 2) ≠
      [0xC9, 0xC3] := by
  refine ⟨rfl, by simp [loopFn], by decide⟩

/-- C6 witness: the amended theorem applied to `retFn`, whose compiled bytes
are exactly prologue plus `leave; ret`. -/
theorem compiled_prologue_epilogue_witness :
    [0x55, 0x48, 0x89, 0xE5, 0xC9, 0xC3].take 4 = [0x55, 0x48, 0x89, 0xE5] ∧
    (lastInstIsRet retFn = true →
      [0x55, 0x48, 0x89, 0xE5, 0xC9, 0xC3].drop
          ([0x55, 0x48, 0x89, 0xE5, 0xC9, 0xC3].length - 2) = [0xC9, 0xC3]) :=
  compiled_prologue_epilogue retFn [0x55, 0x48, 0x89, 0xE5, 0xC9, 0xC3]
    (by simp [retFn]) rfl

/-- C7: for every jump fixup recorded during body emission whose target
block has a recorded offset, the fixup pass overwrites the 4 placeholder
bytes at the fixup's offset with the little-endian 32-bit value
`target_block.offset - (fixup.file_offset + 4)` (as `relVal`, the
two's-complement `uint32` of that difference). -/
theorem fixup_patches_relative_offset (fn : Fn) (st : CState) (bs : List Nat)
    (f : Fixup) (t : Nat)
    (h : bodyPhaseB fn = .ok st)
    (hbs : compileFunctionB fn = .ok bs)
    (hf : f ∈ st.fixups)
    (ht : List.lookup f.target st.blockOffsets = some t) :
    sliceBytes bs f.offset 4 = le32Bytes (relVal t f.offset) := by
  obtain ⟨st', hbody', hbs'⟩ := compileFunctionB_inv fn bs hbs
  have hst : st' = st := by
    rw [hbody'] at h
    injection h
  subst hst
  obtain ⟨hchain, _⟩ := bodyPhaseB_chain fn st' hbody'
  rw [hbs']
  exact applyFixupsList_slice st'.text st'.fixups st'.blockOffsets 4 f t
    hchain hf ht

/-- C7 witness: the theorem applied to `loopFn`, whose single fixup at
offset 5 targets block 0 recorded at offset 4, so the patched bytes are the
little-endian encoding of `uint32(4 - 9) = 0xFFFFFFFB`. -/
theorem fixup_patches_relative_offset_witness :
    sliceBytes [0x55, 0x48, 0x89, 0xE5, 0xE9, 0xFB, 0xFF, 0xFF, 0xFF]
        ({ offset := 5, target := 0 } : Fixup).offset 4 =
      le32Bytes (relVal 4 ({ offset := 5, target := 0 } : Fixup).offset) :=
  fixup_patches_relative_offset loopFn
    { text := [0x55, 0x48, 0x89, 0xE5, 0xE9, 0, 0, 0, 0],
      fixups := [{ offset := 5, target := 0 }], relocs := [],
      blockOffsets := [(0, 4)], sm := [] }
    [0x55, 0x48, 0x89, 0xE5, 0xE9, 0xFB, 0xFF, 0xFF, 0xFF]
    { offset := 5, target := 0 } 4 rfl rfl (by simp) rfl

/-- In the variant-A inline fixup loop, any fixup whose target has no
recorded block offset makes the loop return a missing-label error. -/
theorem fixupLoopA_error (text : List Nat) (fs : List Fixup)
    (bo : List (Nat × Nat)) (f : Fixup) (hf : f ∈ fs)
    (hn : List.lookup f.target bo = none) :
    exceptIsOk (fixupLoopA text fs bo) = false := by
  induction fs generalizing text with
  | nil => cases hf
  | cons g rest ih =>
      rw [fixupLoopA]
      cases hg : List.lookup g.target bo with
      | none => rfl
      | some t =>
          rcases List.mem_cons.mp hf with rfl | hmem
          · rw [hg] at hn; cases hn
          · exact ih _ hmem

/-- C8 (amended): in the variant-A `compileFunction` (the one whose fixup
loop is inline), a jump fixup whose target block has no recorded offset
after the body pass makes compilation fail with an error reported through
the compile call; the variant-B `applyFixups` silently skips such a fixup,
leaving the zero placeholder bytes in the emitted code. -/
theorem missing_label_fails_variantA (fn : Fn) (st : CState) (f : Fixup)
    (h1 : bodyPhaseA fn = .ok st) (h2 : f ∈ st.fixups)
    (h3 : List.lookup f.target st.blockOffsets = none) :
    exceptIsOk (compileFunctionA fn) = false := by
  simp only [compileFunctionA, bind, Except.bind]
  rw [h1]
  exact fixupLoopA_error st.text st.fixups st.blockOffsets f h2 h3

/-- C8 counterexample: `danglingFn` branches to the nonexistent block 99;
the variant-B `compileFunction` succeeds anyway and leaves the four zero
placeholder bytes in the emitted code. -/
theorem danglingFn_variantB_no_error :
    compileFunctionB danglingFn =
      Except.ok [0x55, 0x48, 0x89, 0xE5, 0xE9, 0, 0, 0, 0] ∧
    [0x55, 0x48, 0x89, 0xE5, 0xE9, 0, 0, 0, 0].drop 5 = [0, 0, 0, 0] :=
  ⟨rfl, rfl⟩

/-- C8 witness: the amended theorem applied to `danglingFn` under the
variant-A compiler. -/
theorem missing_label_fails_variantA_witness :
    exceptIsOk (compileFunctionA danglingFn) = false :=
  missing_label_fails_variantA danglingFn
    { text := [0x55, 0x48, 0x89, 0xE5, 0xE9, 0, 0, 0, 0],
      fixups := [{ offset := 5, target := 99 }], relocs := [],
      blockOffsets := [(0, 4)], sm := [] }
    { offset := 5, target := 99 } rfl (by simp) rfl

/-- C10: for every IR value that is not a constant and not a global (i.e.
an argument or instruction result, the values that carry a stack-map key)
and has no assigned frame slot, `loadToReg` emits exactly `xor reg, reg` and
records nothing else, and `storeFromReg` emits no bytes at all; neither
function has an error path (they mirror the Go methods, which return
nothing), so compilation continues normally. -/
theorem slotless_value_fallback (curLen reg : Nat) (sm : List (VKey × Int))
    (v : Value) (k : VKey) (h1 : v.vkey = some k)
    (h2 : List.lookup k sm = none) :
    loadToRegBytes curLen sm reg v = (xorRegBytes reg reg, []) ∧
    storeFromRegBytes sm reg v = [] := by
  cases v with
  | constInt ty val => cases h1
  | global nm => cases h1
  | arg i t =>
      injection h1 with h1
      subst h1
      simp [loadToRegBytes, storeFromRegBytes, Value.vkey, h2]
  | instr id t =>
      injection h1 with h1
      subst h1
      simp [loadToRegBytes, storeFromRegBytes, Value.vkey, h2]

/-- C10 witness: the fallback theorem at a concrete slotless argument. -/
theorem slotless_value_fallback_witness :
    loadToRegBytes 0 [] 0 (Value.arg 0 (Ty.integer 64)) =
      (xorRegBytes 0 0, []) ∧
    storeFromRegBytes [] 0 (Value.arg 0 (Ty.integer 64)) = [] :=
  slotless_value_fallback 0 0 [] (Value.arg 0 (Ty.integer 64))
    (VKey.argK 0) rfl rfl

end Codegen
